import Mathlib

/-!
Verification of the trade-graph client: a shallow embedding of the
trade aggregation engine (`processTradeData`), the node colour mapping
(`calculateNodeColor`), and the paginated fetcher (`fetchTradeHistory`)
of the canonical (7-day window, notional-volume) variant of the sources.

Numeric fields that the source stores as strings and parses with
`parseFloat` are represented by their parsed values in `ℚ`; the claims
under consideration restrict attention to inputs whose numeric fields
parse to finite numbers, for which exact rational arithmetic is the
faithful carrier of the source's algebra.

JavaScript `Map`s are embedded as insertion-ordered association lists,
which reproduces both `Map.set`/`Map.get` semantics and the iteration
order used when the maps are converted to arrays.
-/

namespace Swarm

/-- One leg of a two-party trade, as delivered by the trade-history API.
Only the fields read by the aggregator are retained. -/
structure Trade where
  trade_id : String
  wallet : String
  direction : String
  trade_amount : ℚ
  trade_price : ℚ
  index_price : ℚ
  timestamp : ℤ
deriving DecidableEq

/-- Per-wallet accumulator built by the first pass of `processTradeData`.
The `x`/`y` fields hold the random initial position assigned at creation. -/
structure WalletNode where
  id : String
  totalAmount : ℚ
  totalNotionalVolume : ℚ
  tradeCount : ℕ
  buyCount : ℕ
  sellCount : ℕ
  x : ℚ
  y : ℚ
deriving DecidableEq

/-- Entry of the `tradeLinks` map: a link under construction, whose
`source`/`target` start out `undefined` (here `none`). -/
structure PartialLink where
  id : String
  source : Option String
  target : Option String
  amount : ℚ
  price : ℚ
  timestamp : ℤ
deriving DecidableEq

/-- A completed edge of the graph. -/
structure GraphLink where
  id : String
  source : String
  target : String
  amount : ℚ
  price : ℚ
  timestamp : ℤ
deriving DecidableEq

inductive NodeType where
  | buyer
  | seller
  | mixed
deriving DecidableEq

/-- A node of the rendered graph, as emitted by `processTradeData`. -/
structure GraphNode where
  id : String
  totalAmount : ℚ
  totalNotionalVolume : ℚ
  maxAmount : ℚ
  size : ℚ
  normalizedSize : ℚ
  tradeCount : ℕ
  buyCount : ℕ
  sellCount : ℕ
  type : NodeType
deriving DecidableEq

/-- The aggregate statistics shown in the status bar. -/
structure Stats where
  nodeCount : ℕ
  edgeCount : ℕ
  totalVolume : ℚ
  totalNotionalVolume : ℚ
deriving DecidableEq

/-- Result of `processTradeData`. -/
structure GraphData where
  nodes : List GraphNode
  links : List GraphLink
  stats : Stats
deriving DecidableEq

/-- Lookup in an insertion-ordered association list (`Map.get`). -/
def alistFind (k : String) : List (String × α) → Option α
  | [] => none
  | (k', v) :: rest => if k' = k then some v else alistFind k rest

/-- The `if (!m.has(k)) m.set(k, init); f(m.get(k))` pattern of the source:
insert `init` at the end when the key is absent, then update the stored
value in place with `f`. -/
def upsert (k : String) (init : α) (f : α → α) : List (String × α) → List (String × α)
  | [] => [(k, f init)]
  | (k', v) :: rest =>
    if k' = k then (k', f v) :: rest else (k', v) :: upsert k init f rest

/-- Fresh wallet accumulator: zeroed statistics plus a random initial
position (`Math.random() * width/height`), abstracted by the oracle `rnd`. -/
def walletInit (rnd : String → ℚ × ℚ) (t : Trade) : WalletNode :=
  { id := t.wallet
    totalAmount := 0
    totalNotionalVolume := 0
    tradeCount := 0
    buyCount := 0
    sellCount := 0
    x := (rnd t.wallet).1
    y := (rnd t.wallet).2 }

/-- Update of the wallet accumulator by one trade: `tradeCount++`, add
`trade_amount` and `trade_amount * index_price`, and bump `buyCount` when
`direction === 'buy'`, `sellCount` otherwise. -/
def walletStep (t : Trade) (w : WalletNode) : WalletNode :=
  { w with
    tradeCount := w.tradeCount + 1
    totalAmount := w.totalAmount + t.trade_amount
    totalNotionalVolume := w.totalNotionalVolume + t.trade_amount * t.index_price
    buyCount := if t.direction = "buy" then w.buyCount + 1 else w.buyCount
    sellCount := if t.direction = "buy" then w.sellCount else w.sellCount + 1 }

/-- Fresh `tradeLinks` entry, carrying `amount`, `price`, `timestamp` from
the first observed leg of this `trade_id`, with both endpoints missing. -/
def linkInit (t : Trade) : PartialLink :=
  { id := t.trade_id
    source := none
    target := none
    amount := t.trade_amount
    price := t.trade_price
    timestamp := t.timestamp }

/-- One leg fills in one endpoint: the buy leg sets `target`, any other
direction sets `source`. -/
def linkStep (t : Trade) (l : PartialLink) : PartialLink :=
  if t.direction = "buy" then { l with target := some t.wallet }
  else { l with source := some t.wallet }

/-- State of the single pass over the trade list: the `walletMap` and the
`tradeLinks` map. -/
structure AggState where
  wallets : List (String × WalletNode)
  tradeLinks : List (String × PartialLink)
deriving DecidableEq

/-- Processing of one trade inside the `forEach` of `processTradeData`. -/
def processTrade (rnd : String → ℚ × ℚ) (st : AggState) (t : Trade) : AggState :=
  { wallets := upsert t.wallet (walletInit rnd t) (walletStep t) st.wallets
    tradeLinks := upsert t.trade_id (linkInit t) (linkStep t) st.tradeLinks }

/-- JavaScript truthiness of an optional string: `undefined` and the empty
string are falsy, every other string is truthy. -/
def isTruthy : Option String → Bool
  | none => false
  | some s => s != ""

/-- The `link.source as string` / `link.target as string` casts applied
once a `tradeLinks` entry passes the completeness filter. -/
def completeLink (l : PartialLink) : GraphLink :=
  { id := l.id
    source := l.source.getD ""
    target := l.target.getD ""
    amount := l.amount
    price := l.price
    timestamp := l.timestamp }

/-- Body of the running-maximum loop over the wallet map. -/
def maxStep (mx : ℚ) (kw : String × WalletNode) : ℚ :=
  if kw.2.totalNotionalVolume > mx then kw.2.totalNotionalVolume else mx

/-- The running-maximum loop over the wallet map, started at `0`. -/
def maxNotionalVolume (wallets : List (String × WalletNode)) : ℚ :=
  wallets.foldl maxStep 0

/-- The link emission pipeline: drop entries whose `source` or `target` is
falsy, and cast the survivors to completed `GraphLink`s. -/
def outputLinks (m : List (String × PartialLink)) : List GraphLink :=
  ((m.map Prod.snd).filter
    (fun l => isTruthy l.source && isTruthy l.target)).map completeLink

/-- Conversion of a wallet accumulator to a `GraphNode`, scaling by the
maximum notional volume (`normalizedSize = 1` when the maximum is `0`). -/
def mkGraphNode (maxN : ℚ) (w : WalletNode) : GraphNode :=
  { id := w.id
    totalAmount := w.totalAmount
    totalNotionalVolume := w.totalNotionalVolume
    maxAmount := maxN
    size := w.totalNotionalVolume
    normalizedSize := if maxN > 0 then w.totalNotionalVolume / maxN else 1
    tradeCount := w.tradeCount
    buyCount := w.buyCount
    sellCount := w.sellCount
    type :=
      if w.buyCount > w.sellCount then NodeType.buyer
      else if w.sellCount > w.buyCount then NodeType.seller
      else NodeType.mixed }

/-- The trade aggregator `processTradeData`: fold the trade list into the
wallet and link maps, normalise node sizes against the maximum notional
volume, keep only links with both endpoints truthy, and compute the halved
volume statistics. -/
def processTradeData (rnd : String → ℚ × ℚ) (trades : List Trade) : GraphData :=
  let final := trades.foldl (processTrade rnd) ⟨[], []⟩
  let maxN := maxNotionalVolume final.wallets
  let nodes := final.wallets.map (fun kw => mkGraphNode maxN kw.2)
  let links := outputLinks final.tradeLinks
  { nodes := nodes
    links := links
    stats :=
      { nodeCount := nodes.length
        edgeCount := links.length
        totalVolume := (nodes.map GraphNode.totalAmount).sum / 2
        totalNotionalVolume := (nodes.map GraphNode.totalNotionalVolume).sum / 2 } }

/-- The legs of a given `trade_id` inside a trade list, in order. -/
def legsOf (tid : String) (trades : List Trade) : List Trade :=
  trades.filter (fun t => t.trade_id == tid)

/-- Structured form of the `hsl(h, s%, l%)` strings returned by
`calculateNodeColor`. -/
structure HslColor where
  hue : ℕ
  sat : ℚ
  light : ℚ
deriving DecidableEq

/-!
The colour mapping is computed by the source in IEEE-754 binary64
arithmetic (JavaScript numbers), and `Math.floor((buyCount / total) *
100)` differs observably from exact division — e.g. at counts `(29, 71)`
the double `0.29 * 100` is `28.999999999999996`, so the program's ratio
is `28` where exact arithmetic gives `29`. The following is therefore an
exact executable model of non-negative binary64 values and of the
round-to-nearest, ties-to-even operations this code path performs. Every
value reached here lies far inside the normal range (all inputs are
ratios in `[0, 1]` scaled by constants up to `142`), except that a
quotient `buyCount / total` with an astronomically large `total` can go
subnormal, which the exponent clamp at `-1074` covers; no reachable value
overflows. -/

/-- Fuel-driven base-2 logarithm (the fuel argument only bounds the
recursion; `natLog2` below supplies enough). -/
def log2Fuel : ℕ → ℕ → ℕ
  | 0, _ => 0
  | fuel + 1, n => if n ≤ 1 then 0 else log2Fuel fuel (n / 2) + 1

/-- Floor of the base-2 logarithm of a positive natural. -/
def natLog2 (n : ℕ) : ℕ := log2Fuel n n

/-- A non-negative finite binary64 value, represented exactly as
`m * 2^e`. The mantissa produced by `roundF64` is the rounded 53-bit
significand at the chosen exponent (not necessarily normalised, which
does not affect the value). -/
structure F64 where
  m : ℕ
  e : ℤ
deriving DecidableEq

/-- Floor of the base-2 logarithm of the positive rational `n / d`. -/
def floorLog2 (n d : ℕ) : ℤ :=
  let c : ℤ := (natLog2 n : ℤ) - (natLog2 d : ℤ)
  if 0 ≤ c then
    (if d * 2 ^ c.toNat ≤ n then c else c - 1)
  else
    (if d ≤ n * 2 ^ (-c).toNat then c else c - 1)

/-- Round the non-negative rational `n / d` (with `d > 0`) to the nearest
binary64 value, ties to even, with the exponent clamped at the subnormal
limit `-1074`. -/
def roundF64 (n d : ℕ) : F64 :=
  if n = 0 then ⟨0, 0⟩
  else
    let e : ℤ := max (floorLog2 n d - 52) (-1074)
    let num := if 0 ≤ e then n else n * 2 ^ (-e).toNat
    let den := if 0 ≤ e then d * 2 ^ e.toNat else d
    let q := num / den
    let r := num % den
    let m :=
      if 2 * r < den then q
      else if den < 2 * r then q + 1
      else if q % 2 = 0 then q else q + 1
    ⟨m, e⟩

/-- Binary64 multiplication of a value by an exactly representable
natural constant: the exact product, rounded. -/
def fmulNat (f : F64) (k : ℕ) : F64 :=
  if 0 ≤ f.e then roundF64 (f.m * k * 2 ^ f.e.toNat) 1
  else roundF64 (f.m * k) (2 ^ (-f.e).toNat)

/-- Binary64 subtraction `k - f` of a value from an exactly representable
natural constant: the exact difference, rounded (every reachable use has
the value below `k`, so the natural subtraction never truncates). -/
def fsubNat (k : ℕ) (f : F64) : F64 :=
  if 0 ≤ f.e then roundF64 (k - f.m * 2 ^ f.e.toNat) 1
  else roundF64 (k * 2 ^ (-f.e).toNat - f.m) (2 ^ (-f.e).toNat)

/-- `Math.floor` of a non-negative binary64 value. -/
def floorF64 (f : F64) : ℕ :=
  if 0 ≤ f.e then f.m * 2 ^ f.e.toNat else f.m / 2 ^ (-f.e).toNat

/-- The exact rational value of a binary64 representation. -/
def valueF64 (f : F64) : ℚ :=
  if 0 ≤ f.e then ((f.m * 2 ^ f.e.toNat : ℕ) : ℚ)
  else (f.m : ℚ) / ((2 ^ (-f.e).toNat : ℕ) : ℚ)

/-- The buy-ratio percentage exactly as the source computes it:
`Math.floor((buyCount / total) * 100)` in binary64 — one rounded
division, one rounded multiplication by the exact constant `100`, then a
floor. -/
def floatBuyRatio (buyCount sellCount : ℕ) : ℕ :=
  floorF64 (fmulNat (roundF64 buyCount (buyCount + sellCount)) 100)

/-- The hue `Math.floor((buyRatio / 100) * (142 - 0) + 0)` in binary64:
`142 - 0` is the exact constant `142`, and adding `+ 0` to a finite
non-negative double is the identity. -/
def hueF (buyRatio : ℕ) : ℕ :=
  floorF64 (fmulNat (roundF64 buyRatio 100) 142)

/-- The double nearest `0.1`, the literal used by the saturation and
lightness adjustments. -/
def pointOne : F64 := roundF64 1 10

/-- The node colour mapping `calculateNodeColor`: neutral gray for an
inactive wallet, pure red at computed buy-ratio 0, pure green at computed
buy-ratio 100, and otherwise a hue interpolated between 0° and 142° with
saturation and lightness adjusted by the distance from a balanced ratio.
All arithmetic follows the source's binary64 evaluation:
`Math.abs(buyRatio - 50)` is exact on these small integers,
`x * 0.1` is a rounded product with the double nearest `0.1`,
`x * -0.1` is its exact negation, and the final `85 - y` / `45 + (-y)`
are rounded additions of values of opposite sign, i.e. rounded
subtractions. -/
def calculateNodeColor (buyCount sellCount : ℕ) : HslColor :=
  if buyCount = 0 ∧ sellCount = 0 then ⟨210, 10, 70⟩
  else
    let buyRatio := floatBuyRatio buyCount sellCount
    if buyRatio = 0 then ⟨0, 100, 50⟩
    else if buyRatio = 100 then ⟨142, 100, 45⟩
    else
      let dist := if 50 ≤ buyRatio then buyRatio - 50 else 50 - buyRatio
      { hue := hueF buyRatio
        sat := valueF64 (fsubNat 85 (fmulNat pointOne dist))
        light := valueF64 (fsubNat 45 (fmulNat pointOne dist)) }

/-- The filter parameters read by `fetchTradeHistory`; timestamps are in
milliseconds. -/
structure Filters where
  currency : String
  instrumentType : String
  instrumentName : String
  fromTimestamp : ℤ
  toTimestamp : ℤ
  pageSize : ℕ
  page : ℕ
  txStatus : String
deriving DecidableEq

/-- Seven days in milliseconds, the maximum lookback window of the
canonical fetcher variant. -/
def oneWeekMs : ℤ := 7 * 24 * 60 * 60 * 1000

/-- The input validation at the top of `fetchTradeHistory`: the only check
performed, returning the thrown error message when the window is too
large. -/
def validateTimeRange (filters : Filters) : Option String :=
  if filters.toTimestamp - filters.fromTimestamp > oneWeekMs then
    some "Time range cannot exceed 7 days"
  else none

/-- Whether control reaches the first-page `fetch` call, i.e. whether the
validation did not throw. -/
def issuesFirstRequest (filters : Filters) : Bool :=
  (validateTimeRange filters).isNone

/-- The constant `fetchBatchSize` of the fetcher. -/
def fetchBatchSize : ℕ := 3

/-- The pages requested by one iteration of the outer batching loop: the
inner loop runs `batchPage` from `page` while
`batchPage < page + fetchBatchSize && batchPage <= totalPages`. -/
def batchPages (page totalPages : ℕ) : List ℕ :=
  ((List.range fetchBatchSize).map (page + ·)).filter (· ≤ totalPages)

/-- The outer batching loop `for (page = 2; page <= totalPages;
page += fetchBatchSize)`, written with an explicit iteration budget so the
recursion is structural; `batchesFrom` below instantiates the budget with
a bound that is always sufficient. -/
def batchLoop : ℕ → ℕ → ℕ → List (List ℕ)
  | 0, _, _ => []
  | fuel + 1, page, totalPages =>
    if page ≤ totalPages then
      batchPages page totalPages ::
        batchLoop fuel (page + fetchBatchSize) totalPages
    else []

/-- The batches of pages requested after the first page, starting the
outer loop at `page = 2`. -/
def batchesFrom (page totalPages : ℕ) : List (List ℕ) :=
  batchLoop (totalPages + 1) page totalPages

/-- The full batch schedule of a fetch whose first response declares
`num_pages = numPages`: no further requests when `numPages <= 1`,
otherwise pages `2..numPages` in batches. -/
def pageSchedule (numPages : ℕ) : List (List ℕ) :=
  if numPages ≤ 1 then [] else batchesFrom 2 numPages

/-- Total number of network requests of a fetch whose first response
declares `numPages`: the mandatory page-1 request plus one request per
scheduled page. -/
def requestCount (numPages : ℕ) : ℕ :=
  1 + ((pageSchedule numPages).map List.length).sum

/-- One batch: all of its page requests must succeed (`Promise.all`), and
any failure rejects the whole batch. -/
def runBatch (fetchPage : ℕ → Except String (List Trade)) :
    List ℕ → Except String (List (List Trade))
  | [] => Except.ok []
  | p :: rest =>
    match fetchPage p with
    | Except.error e => Except.error e
    | Except.ok r =>
      match runBatch fetchPage rest with
      | Except.error e => Except.error e
      | Except.ok rs => Except.ok (r :: rs)

/-- Sequential processing of the batch schedule: each batch is awaited
before the next is issued, a failing batch aborts the whole fetch, and the
successful trades are concatenated in schedule order. -/
def runSchedule (fetchPage : ℕ → Except String (List Trade)) :
    List (List ℕ) → Except String (List Trade)
  | [] => Except.ok []
  | b :: rest =>
    match runBatch fetchPage b with
    | Except.error e => Except.error e
    | Except.ok results =>
      match runSchedule fetchPage rest with
      | Except.error e => Except.error e
      | Except.ok more => Except.ok (results.flatten ++ more)

/-- The parsed body of a non-success HTTP response: `none` when
`response.json()` rejects, otherwise the optional `message` field of the
parsed object. -/
structure ErrorBody where
  message : Option String
deriving DecidableEq

/-- A non-success HTTP response to a trade-history request. -/
structure ApiResponse where
  status : ℕ
  statusText : String
  body : Option ErrorBody
deriving DecidableEq

/-- The non-ok branch of the first-page fetch. The try block either fails
while parsing the body (`response.json()` rejects) or itself throws the
error built from the remote message; in both cases control transfers to
the `catch (parseError)` handler, which throws the status-line fallback.
The result is the message of the error that actually propagates to the
caller. -/
def initialErrorMessage (r : ApiResponse) : String :=
  let tryBlock : Except String Unit :=
    match r.body with
    | none => Except.error "body is not JSON"
    | some b =>
      Except.error
        ((b.message).getD
          ("API returned " ++ toString r.status ++ ": " ++ r.statusText))
  match tryBlock with
  | Except.error _ =>
    "API error (" ++ toString r.status ++ "): " ++ r.statusText
  | Except.ok _ => ""

/-- The non-ok branch of a batched page fetch, with the same try/catch
shape as `initialErrorMessage` but page-specific message texts. -/
def pageErrorMessage (batchPage : ℕ) (r : ApiResponse) : String :=
  let tryBlock : Except String Unit :=
    match r.body with
    | none => Except.error "body is not JSON"
    | some b =>
      Except.error
        ((b.message).getD
          ("Failed to fetch page " ++ toString batchPage ++ ": " ++ r.statusText))
  match tryBlock with
  | Except.error _ =>
    "API error on page " ++ toString batchPage ++ " (" ++ toString r.status ++
      "): " ++ r.statusText
  | Except.ok _ => ""

/-- One step of the per-`trade_id` view of the link map: the effect that
processing one further leg has on the entry of that `trade_id`. -/
def legFold (o : Option PartialLink) (t : Trade) : Option PartialLink :=
  some (linkStep t (o.getD (linkInit t)))

/-- A concrete position oracle used by the closed witness statements. -/
def rnd0 : String → ℚ × ℚ := fun _ => (0, 0)

/-- Sample sell leg of trade `t1` by wallet `A`. -/
def tSellA : Trade := ⟨"t1", "A", "sell", 1, 1999, 2000, 5⟩

/-- Sample buy leg of trade `t1` by wallet `B`. -/
def tBuyB : Trade := ⟨"t1", "B", "buy", 1, 1999, 2000, 5⟩

/-- Sample sell leg of trade `t1` whose wallet is the empty string. -/
def tSellEmpty : Trade := ⟨"t1", "", "sell", 1, 1999, 2000, 5⟩

/-- Sample leg with a direction that is neither `buy` nor `sell`. -/
def tOther : Trade := ⟨"t2", "C", "transfer", 2, 10, 11, 6⟩

/-- A page fetcher that fails on page 3 and succeeds elsewhere, used by
the closed witness statements. -/
def failingFetch : ℕ → Except String (List Trade) :=
  fun p => if p = 3 then Except.error "boom" else Except.ok []

/-- Filter parameters whose `fromTimestamp` exceeds the `toTimestamp`. -/
def badFilters : Filters :=
  ⟨"ETH", "perp", "ETH-PERP", 10, 5, 100, 1, "settled"⟩

/-! ### Association-list lemmas -/

theorem alistFind_upsert_self (k : String) (init : α) (f : α → α)
    (m : List (String × α)) :
    alistFind k (upsert k init f m) = some (f ((alistFind k m).getD init)) := by
  induction m with
  | nil => simp [upsert, alistFind]
  | cons hd tl ih =>
    obtain ⟨k', v⟩ := hd
    by_cases h : k' = k
    · subst h
      simp [upsert, alistFind]
    · simp [upsert, alistFind, h, ih]

theorem alistFind_upsert_ne (k k' : String) (hne : k' ≠ k) (init : α)
    (f : α → α) (m : List (String × α)) :
    alistFind k' (upsert k init f m) = alistFind k' m := by
  induction m with
  | nil => simp [upsert, alistFind, Ne.symm hne]
  | cons hd tl ih =>
    obtain ⟨k'', v⟩ := hd
    by_cases h : k'' = k
    · subst h
      simp [upsert, alistFind, Ne.symm hne]
    · simp [upsert, alistFind, h, ih]

theorem upsert_keys (k : String) (init : α) (f : α → α)
    (m : List (String × α)) :
    (upsert k init f m).map Prod.fst =
      if k ∈ m.map Prod.fst then m.map Prod.fst
      else m.map Prod.fst ++ [k] := by
  induction m with
  | nil => simp [upsert]
  | cons hd tl ih =>
    obtain ⟨k', v⟩ := hd
    by_cases h : k' = k
    · subst h
      simp [upsert]
    · by_cases h2 : k ∈ tl.map Prod.fst <;>
        simp [upsert, h, h2, ih, Ne.symm h]

theorem upsert_keys_nodup (k : String) (init : α) (f : α → α)
    (m : List (String × α)) (h : (m.map Prod.fst).Nodup) :
    ((upsert k init f m).map Prod.fst).Nodup := by
  rw [upsert_keys]
  split
  · exact h
  · next hmem => simp [List.nodup_append, h, hmem]

theorem upsert_ne_nil (k : String) (init : α) (f : α → α)
    (m : List (String × α)) : upsert k init f m ≠ [] := by
  cases m with
  | nil => simp [upsert]
  | cons hd tl =>
    obtain ⟨k', v⟩ := hd
    by_cases h : k' = k <;> simp [upsert, h]

theorem upsert_pair_invariant (P : String → α → Prop) (k : String)
    (init : α) (f : α → α) (m : List (String × α))
    (hm : ∀ p ∈ m, P p.1 p.2) (hinit : P k (f init))
    (hstep : ∀ v, P k v → P k (f v)) :
    ∀ p ∈ upsert k init f m, P p.1 p.2 := by
  induction m with
  | nil =>
    intro p hp
    simp [upsert] at hp
    subst hp
    exact hinit
  | cons hd tl ih =>
    obtain ⟨k', v⟩ := hd
    intro p hp
    by_cases h : k' = k
    · subst h
      simp [upsert] at hp
      rcases hp with hp | hp
      · subst hp
        exact hstep v (hm (k', v) (by simp))
      · exact hm p (by simp [hp])
    · simp [upsert, h] at hp
      rcases hp with hp | hp
      · subst hp
        exact hm (k', v) (by simp)
      · exact ih (fun q hq => hm q (by simp [hq])) p hp

/-! ### Invariants of the aggregation fold -/

theorem foldl_wallets_invariant (rnd : String → ℚ × ℚ)
    (P : WalletNode → Prop) :
    ∀ (trades : List Trade) (st : AggState),
      (∀ p ∈ st.wallets, P p.2) →
      (∀ t ∈ trades, P (walletStep t (walletInit rnd t))) →
      (∀ t ∈ trades, ∀ w, P w → P (walletStep t w)) →
      ∀ p ∈ (trades.foldl (processTrade rnd) st).wallets, P p.2 := by
  intro trades
  induction trades with
  | nil =>
    intro st hst _ _
    simpa using hst
  | cons t ts ih =>
    intro st hst hinit hstep
    simp only [List.foldl_cons]
    apply ih
    · intro p hp
      simp only [processTrade] at hp
      exact upsert_pair_invariant (fun _ w => P w) _ _ _ st.wallets hst
        (hinit t (by simp)) (fun v hv => hstep t (by simp) v hv) p hp
    · intro t' ht'
      exact hinit t' (by simp [ht'])
    · intro t' ht' w hw
      exact hstep t' (by simp [ht']) w hw

theorem foldl_wallets_ne_nil (rnd : String → ℚ × ℚ) :
    ∀ (trades : List Trade) (st : AggState), st.wallets ≠ [] →
      (trades.foldl (processTrade rnd) st).wallets ≠ [] := by
  intro trades
  induction trades with
  | nil =>
    intro st hst
    simpa using hst
  | cons t ts ih =>
    intro st _
    simp only [List.foldl_cons]
    exact ih (processTrade rnd st t) (upsert_ne_nil _ _ _ _)

theorem foldl_links_nodup (rnd : String → ℚ × ℚ) :
    ∀ (trades : List Trade) (st : AggState),
      (st.tradeLinks.map Prod.fst).Nodup →
      ((trades.foldl (processTrade rnd) st).tradeLinks.map Prod.fst).Nodup := by
  intro trades
  induction trades with
  | nil =>
    intro st hst
    simpa using hst
  | cons t ts ih =>
    intro st hst
    simp only [List.foldl_cons]
    exact ih (processTrade rnd st t) (upsert_keys_nodup _ _ _ _ hst)

theorem foldl_links_wf (rnd : String → ℚ × ℚ) :
    ∀ (trades : List Trade) (st : AggState),
      (∀ p ∈ st.tradeLinks, p.2.id = p.1) →
      ∀ p ∈ (trades.foldl (processTrade rnd) st).tradeLinks, p.2.id = p.1 := by
  intro trades
  induction trades with
  | nil =>
    intro st hst
    simpa using hst
  | cons t ts ih =>
    intro st hst
    simp only [List.foldl_cons]
    apply ih
    intro p hp
    simp only [processTrade] at hp
    refine upsert_pair_invariant (fun k l => l.id = k) _ _ _ st.tradeLinks hst
      ?_ ?_ p hp
    · simp only [linkStep, linkInit]
      split <;> rfl
    · intro v hv
      simp only [linkStep]
      split <;> simpa using hv

theorem alistFind_foldl_links (rnd : String → ℚ × ℚ) (tid : String) :
    ∀ (trades : List Trade) (st : AggState),
      alistFind tid (trades.foldl (processTrade rnd) st).tradeLinks
        = (legsOf tid trades).foldl legFold (alistFind tid st.tradeLinks) := by
  intro trades
  induction trades with
  | nil =>
    intro st
    simp [legsOf]
  | cons t ts ih =>
    intro st
    simp only [List.foldl_cons]
    rw [ih]
    by_cases h : t.trade_id = tid
    · have hl : legsOf tid (t :: ts) = t :: legsOf tid ts := by
        simp [legsOf, List.filter_cons, h]
      rw [hl, List.foldl_cons]
      congr 1
      show alistFind tid
        (upsert t.trade_id (linkInit t) (linkStep t) st.tradeLinks) = _
      rw [h, alistFind_upsert_self]
      rfl
    · have hl : legsOf tid (t :: ts) = legsOf tid ts := by
        simp [legsOf, List.filter_cons, h]
      rw [hl]
      congr 1
      exact alistFind_upsert_ne _ _ (fun hh => h hh.symm) _ _ _

/-! ### The link emission pipeline -/

theorem completeLink_id (l : PartialLink) : (completeLink l).id = l.id := rfl

theorem outputLinks_cons (k : String) (v : PartialLink)
    (tl : List (String × PartialLink)) :
    outputLinks ((k, v) :: tl)
      = (if isTruthy v.source && isTruthy v.target then [completeLink v]
         else []) ++ outputLinks tl := by
  simp only [outputLinks, List.map_cons, List.filter_cons]
  split <;> simp

theorem outputLinks_filter_not_mem (tid : String) :
    ∀ m : List (String × PartialLink),
      (∀ p ∈ m, p.2.id = p.1) → tid ∉ m.map Prod.fst →
      (outputLinks m).filter (fun l => l.id == tid) = [] := by
  intro m
  induction m with
  | nil => simp [outputLinks]
  | cons hd tl ih =>
    obtain ⟨k, v⟩ := hd
    intro hwf hmem
    rw [outputLinks_cons, List.filter_append]
    have hk : k ≠ tid := by
      intro hh
      exact hmem (by simp [hh])
    have hvid : v.id = k := hwf (k, v) (by simp)
    have htl : (outputLinks tl).filter (fun l => l.id == tid) = [] :=
      ih (fun q hq => hwf q (by simp [hq])) (fun hh => hmem (by simp [hh]))
    rw [htl]
    split
    · simp [completeLink_id, hvid, hk]
    · simp

theorem outputLinks_filter_find (tid : String) :
    ∀ m : List (String × PartialLink),
      (m.map Prod.fst).Nodup → (∀ p ∈ m, p.2.id = p.1) →
      (outputLinks m).filter (fun l => l.id == tid)
        = (match alistFind tid m with
           | some l =>
             if isTruthy l.source && isTruthy l.target then [completeLink l]
             else []
           | none => []) := by
  intro m
  induction m with
  | nil => simp [outputLinks, alistFind]
  | cons hd tl ih =>
    obtain ⟨k, v⟩ := hd
    intro hnd hwf
    rw [outputLinks_cons, List.filter_append]
    have hvid : v.id = k := hwf (k, v) (by simp)
    by_cases hk : k = tid
    · subst hk
      have hmem : k ∉ tl.map Prod.fst := by
        simp only [List.map_cons, List.nodup_cons] at hnd
        exact hnd.1
      have htl : (outputLinks tl).filter (fun l => l.id == k) = [] :=
        outputLinks_filter_not_mem k tl
          (fun q hq => hwf q (by simp [hq])) hmem
      rw [htl]
      simp only [alistFind, if_pos rfl]
      by_cases hc : (isTruthy v.source && isTruthy v.target) = true
      · simp [hc, completeLink_id, hvid]
      · simp [hc]
    · have htl := ih
        (by simp only [List.map_cons, List.nodup_cons] at hnd; exact hnd.2)
        (fun q hq => hwf q (by simp [hq]))
      rw [htl]
      have hfind : alistFind tid ((k, v) :: tl) = alistFind tid tl := by
        simp [alistFind, hk]
      rw [hfind]
      have hhd : (if isTruthy v.source && isTruthy v.target
            then [completeLink v] else []).filter (fun l => l.id == tid)
          = [] := by
        split
        · simp [completeLink_id, hvid, hk]
        · simp
      rw [hhd, List.nil_append]

/-! ### Projections of `processTradeData` -/

theorem processTradeData_links_def (rnd : String → ℚ × ℚ)
    (trades : List Trade) :
    (processTradeData rnd trades).links
      = outputLinks ((trades.foldl (processTrade rnd) ⟨[], []⟩).tradeLinks) :=
  rfl

theorem processTradeData_nodes_def (rnd : String → ℚ × ℚ)
    (trades : List Trade) :
    (processTradeData rnd trades).nodes
      = ((trades.foldl (processTrade rnd) ⟨[], []⟩).wallets).map
          (fun kw =>
            mkGraphNode
              (maxNotionalVolume
                (trades.foldl (processTrade rnd) ⟨[], []⟩).wallets) kw.2) :=
  rfl

theorem processTradeData_totalVolume_def (rnd : String → ℚ × ℚ)
    (trades : List Trade) :
    (processTradeData rnd trades).stats.totalVolume
      = ((processTradeData rnd trades).nodes.map GraphNode.totalAmount).sum / 2 :=
  rfl

theorem processTradeData_totalNotional_def (rnd : String → ℚ × ℚ)
    (trades : List Trade) :
    (processTradeData rnd trades).stats.totalNotionalVolume
      = ((processTradeData rnd trades).nodes.map
          GraphNode.totalNotionalVolume).sum / 2 :=
  rfl

theorem alistFind_links_final (rnd : String → ℚ × ℚ) (trades : List Trade)
    (tid : String) :
    alistFind tid (trades.foldl (processTrade rnd) ⟨[], []⟩).tradeLinks
      = (legsOf tid trades).foldl legFold none := by
  rw [alistFind_foldl_links]
  rfl

theorem final_links_nodup (rnd : String → ℚ × ℚ) (trades : List Trade) :
    (((trades.foldl (processTrade rnd) ⟨[], []⟩).tradeLinks).map
      Prod.fst).Nodup :=
  foldl_links_nodup rnd trades ⟨[], []⟩ (by simp)

theorem final_links_wf (rnd : String → ℚ × ℚ) (trades : List Trade) :
    ∀ p ∈ (trades.foldl (processTrade rnd) ⟨[], []⟩).tradeLinks,
      p.2.id = p.1 :=
  foldl_links_wf rnd trades ⟨[], []⟩ (by simp)

/-- The key characterization: the links emitted for a given `trade_id`
depend only on the fold of `legFold` over that id's legs. -/
theorem links_filter_char (rnd : String → ℚ × ℚ) (trades : List Trade)
    (tid : String) :
    (processTradeData rnd trades).links.filter (fun l => l.id == tid)
      = (match (legsOf tid trades).foldl legFold none with
         | some l =>
           if isTruthy l.source && isTruthy l.target then [completeLink l]
           else []
         | none => []) := by
  rw [processTradeData_links_def,
    outputLinks_filter_find tid _ (final_links_nodup rnd trades)
      (final_links_wf rnd trades),
    alistFind_links_final]

theorem legFold_all_buy :
    ∀ (legs : List Trade) (o : Option PartialLink),
      (∀ t ∈ legs, t.direction = "buy") →
      (o = none ∨ ∃ l, o = some l ∧ l.source = none) →
      (legs.foldl legFold o = none ∨
        ∃ l, legs.foldl legFold o = some l ∧ l.source = none) := by
  intro legs
  induction legs with
  | nil =>
    intro o _ ho
    simpa using ho
  | cons t ts ih =>
    intro o h ho
    rw [List.foldl_cons]
    apply ih _ (fun t' ht' => h t' (by simp [ht']))
    right
    refine ⟨linkStep t (o.getD (linkInit t)), rfl, ?_⟩
    have ht : t.direction = "buy" := h t (by simp)
    rcases ho with rfl | ⟨l, rfl, hl⟩
    · simp [linkStep, ht, linkInit]
    · simp [linkStep, ht, hl]

theorem legFold_all_nonbuy :
    ∀ (legs : List Trade) (o : Option PartialLink),
      (∀ t ∈ legs, t.direction ≠ "buy") →
      (o = none ∨ ∃ l, o = some l ∧ l.target = none) →
      (legs.foldl legFold o = none ∨
        ∃ l, legs.foldl legFold o = some l ∧ l.target = none) := by
  intro legs
  induction legs with
  | nil =>
    intro o _ ho
    simpa using ho
  | cons t ts ih =>
    intro o h ho
    rw [List.foldl_cons]
    apply ih _ (fun t' ht' => h t' (by simp [ht']))
    right
    refine ⟨linkStep t (o.getD (linkInit t)), rfl, ?_⟩
    have ht : t.direction ≠ "buy" := h t (by simp)
    rcases ho with rfl | ⟨l, rfl, hl⟩
    · simp [linkStep, ht, linkInit]
    · simp [linkStep, ht, hl]

/-- C9: every node produced by the aggregator satisfies
`tradeCount = buyCount + sellCount`: each processed trade increments
`tradeCount` together with exactly one of `buyCount` and `sellCount`. -/
theorem processTradeData_tradeCount_eq (rnd : String → ℚ × ℚ)
    (trades : List Trade) :
    ∀ n ∈ (processTradeData rnd trades).nodes,
      n.tradeCount = n.buyCount + n.sellCount := by
  intro n hn
  rw [processTradeData_nodes_def] at hn
  obtain ⟨kw, hkw, rfl⟩ := List.mem_map.mp hn
  have hinv := foldl_wallets_invariant rnd
    (fun w => w.tradeCount = w.buyCount + w.sellCount) trades ⟨[], []⟩
    (by simp)
    (by
      intro t _
      simp only [walletStep, walletInit]
      split <;> simp)
    (by
      intro t _ w hw
      simp only [walletStep]
      split <;> omega)
    kw hkw
  simpa [mkGraphNode] using hinv

/-- C9 witness: the concrete node produced for wallet `A` from the
one-trade list satisfies the invariant. -/
theorem processTradeData_tradeCount_eq_witness :
    ∃ n, n ∈ (processTradeData rnd0 [tSellA]).nodes ∧
      n.tradeCount = n.buyCount + n.sellCount := by
  have hnodes : (processTradeData rnd0 [tSellA]).nodes
      = [⟨"A", 1, 2000, 2000, 2000, 1, 1, 0, 1, NodeType.seller⟩] := by
    with_unfolding_all rfl
  have hm : (⟨"A", 1, 2000, 2000, 2000, 1, 1, 0, 1, NodeType.seller⟩ :
      GraphNode) ∈ (processTradeData rnd0 [tSellA]).nodes := by
    rw [hnodes]
    exact List.mem_singleton.mpr rfl
  exact ⟨_, hm, processTradeData_tradeCount_eq rnd0 [tSellA] _ hm⟩

/-- C4: the aggregator's stats are the per-node sums halved, so the sum of
`totalAmount` over the nodes equals `2 × stats.totalVolume` and likewise
for the notional volume. -/
theorem processTradeData_stats_halved (rnd : String → ℚ × ℚ)
    (trades : List Trade) :
    ((processTradeData rnd trades).nodes.map GraphNode.totalAmount).sum
        = 2 * (processTradeData rnd trades).stats.totalVolume ∧
      ((processTradeData rnd trades).nodes.map
          GraphNode.totalNotionalVolume).sum
        = 2 * (processTradeData rnd trades).stats.totalNotionalVolume := by
  rw [processTradeData_totalVolume_def, processTradeData_totalNotional_def]
  constructor <;> ring

/-- C2: a `trade_id` all of whose observed legs are buys, or all of whose
observed legs are sells (in particular one with a single observed leg),
produces no `GraphLink`: no emitted link carries that id. -/
theorem processTradeData_one_sided_dropped (rnd : String → ℚ × ℚ)
    (trades : List Trade) (tid : String)
    (h : (∀ t ∈ legsOf tid trades, t.direction = "buy") ∨
         (∀ t ∈ legsOf tid trades, t.direction = "sell")) :
    ∀ l ∈ (processTradeData rnd trades).links, l.id ≠ tid := by
  have hmatch :
      (processTradeData rnd trades).links.filter (fun l => l.id == tid)
        = [] := by
    rw [links_filter_char]
    rcases h with h | h
    · rcases legFold_all_buy (legsOf tid trades) none h (Or.inl rfl) with
        hres | ⟨l, hres, hl⟩
      · rw [hres]
      · rw [hres]
        simp [isTruthy, hl]
    · rcases legFold_all_nonbuy (legsOf tid trades) none
        (fun t ht => by simp [h t ht]) (Or.inl rfl) with
        hres | ⟨l, hres, hl⟩
      · rw [hres]
      · rw [hres]
        simp [isTruthy, hl]
  intro l hl hid
  have hmem : l ∈ (processTradeData rnd trades).links.filter
      (fun l => l.id == tid) :=
    List.mem_filter.mpr ⟨hl, by simp [hid]⟩
  rw [hmatch] at hmem
  simp at hmem

/-- C2 witness: a trade list whose only `t1` leg is a sell emits no link
with id `t1`. -/
theorem processTradeData_one_sided_dropped_witness :
    (processTradeData rnd0 [tSellA]).links.filter (fun l => l.id == "t1")
      = [] := by
  have h := processTradeData_one_sided_dropped rnd0 [tSellA] "t1"
    (Or.inr (by decide))
  exact List.filter_eq_nil_iff.mpr (fun l hl => by simpa using h l hl)

/-- C1 (amended): a `trade_id` observed with exactly one buy leg and one
sell leg yields exactly one emitted link with that id, with `source` the
sell wallet and `target` the buy wallet — provided neither leg's wallet is
the empty string, since the completeness filter tests JavaScript
truthiness and treats an empty-string wallet like a missing one. -/
theorem processTradeData_matched_pair_link (rnd : String → ℚ × ℚ)
    (trades : List Trade) (tid : String) (b s : Trade)
    (hlegs : legsOf tid trades = [b, s] ∨ legsOf tid trades = [s, b])
    (hb : b.direction = "buy") (hs : s.direction = "sell")
    (hbw : b.wallet ≠ "") (hsw : s.wallet ≠ "") :
    ∃ l, (processTradeData rnd trades).links.filter (fun x => x.id == tid)
        = [l] ∧ l.source = s.wallet ∧ l.target = b.wallet := by
  have hsne : s.direction ≠ "buy" := by simp [hs]
  have hfold : ∃ l, (legsOf tid trades).foldl legFold none = some l
      ∧ l.source = some s.wallet ∧ l.target = some b.wallet := by
    rcases hlegs with hl | hl <;> rw [hl] <;>
      exact ⟨_, rfl, by simp [legFold, linkStep, linkInit, hb, hsne],
        by simp [legFold, linkStep, linkInit, hb, hsne]⟩
  obtain ⟨lf, hlf, hlfs, hlft⟩ := hfold
  refine ⟨completeLink lf, ?_, by simp [completeLink, hlfs],
    by simp [completeLink, hlft]⟩
  rw [links_filter_char, hlf]
  simp [isTruthy, hlfs, hlft, hbw, hsw]

/-- C1 witness: a matched sell/buy pair on wallets `A` and `B` yields
exactly one link with id `t1`, directed from `A` to `B`. -/
theorem processTradeData_matched_pair_link_witness :
    ∃ l, (processTradeData rnd0 [tSellA, tBuyB]).links.filter
        (fun x => x.id == "t1") = [l]
      ∧ l.source = tSellA.wallet ∧ l.target = tBuyB.wallet :=
  processTradeData_matched_pair_link rnd0 [tSellA, tBuyB] "t1" tBuyB tSellA
    (Or.inr (by decide)) (by decide) (by decide) (by decide) (by decide)

/-- C1 counterexample: the claim as stated fails when the sell leg's
wallet is the empty string. The trade list below has exactly one buy leg
and one sell leg for `t1`, yet the aggregator emits no link at all,
because the completeness filter treats the empty-string `source` as
missing. -/
theorem processTradeData_empty_wallet_drops_link :
    (legsOf "t1" [tSellEmpty, tBuyB] = [tSellEmpty, tBuyB] ∧
      tSellEmpty.direction = "sell" ∧ tBuyB.direction = "buy") ∧
    (processTradeData rnd0 [tSellEmpty, tBuyB]).links = [] := by
  decide

/-- C10: a trade whose direction is any string other than `buy` is counted
as a sell: the wallet's `sellCount` is incremented, its `buyCount` is left
unchanged (so `buyCount` grows only for direction exactly `buy`), and the
wallet is recorded as the `source` of the trade's link entry. -/
theorem processTrade_nonbuy_is_sell (rnd : String → ℚ × ℚ) (st : AggState)
    (t : Trade) (h : t.direction ≠ "buy") :
    (∃ w, alistFind t.wallet (processTrade rnd st t).wallets = some w ∧
      w.sellCount
        = ((alistFind t.wallet st.wallets).getD
            (walletInit rnd t)).sellCount + 1 ∧
      w.buyCount
        = ((alistFind t.wallet st.wallets).getD
            (walletInit rnd t)).buyCount) ∧
    (∃ l, alistFind t.trade_id (processTrade rnd st t).tradeLinks = some l ∧
      l.source = some t.wallet) := by
  constructor
  · refine ⟨walletStep t
      ((alistFind t.wallet st.wallets).getD (walletInit rnd t)),
      alistFind_upsert_self _ _ _ _, ?_, ?_⟩ <;> simp [walletStep, h]
  · refine ⟨linkStep t
      ((alistFind t.trade_id st.tradeLinks).getD (linkInit t)),
      alistFind_upsert_self _ _ _ _, ?_⟩
    simp [linkStep, h]

/-- C10 witness: a leg with direction `transfer` on wallet `C` bumps the
sell count, leaves the buy count alone, and becomes the link source. -/
theorem processTrade_nonbuy_is_sell_witness :
    (∃ w, alistFind tOther.wallet
        (processTrade rnd0 ⟨[], []⟩ tOther).wallets = some w ∧
      w.sellCount
        = ((alistFind tOther.wallet (AggState.mk [] []).wallets).getD
            (walletInit rnd0 tOther)).sellCount + 1 ∧
      w.buyCount
        = ((alistFind tOther.wallet (AggState.mk [] []).wallets).getD
            (walletInit rnd0 tOther)).buyCount) ∧
    (∃ l, alistFind tOther.trade_id
        (processTrade rnd0 ⟨[], []⟩ tOther).tradeLinks = some l ∧
      l.source = some tOther.wallet) :=
  processTrade_nonbuy_is_sell rnd0 ⟨[], []⟩ tOther (by decide)

/-! ### The running maximum and size normalisation -/

theorem foldl_maxStep_le_init :
    ∀ (ws : List (String × WalletNode)) (a : ℚ), a ≤ ws.foldl maxStep a := by
  intro ws
  induction ws with
  | nil => intro a; simp
  | cons kw tl ih =>
    intro a
    rw [List.foldl_cons]
    refine le_trans ?_ (ih (maxStep a kw))
    simp only [maxStep]
    split
    · next hgt => exact le_of_lt hgt
    · exact le_refl a

theorem foldl_maxStep_mem_le :
    ∀ (ws : List (String × WalletNode)) (a : ℚ), ∀ kw ∈ ws,
      kw.2.totalNotionalVolume ≤ ws.foldl maxStep a := by
  intro ws
  induction ws with
  | nil => intro a kw hkw; simp at hkw
  | cons hd tl ih =>
    intro a kw hkw
    rw [List.foldl_cons]
    rcases List.mem_cons.mp hkw with rfl | hkw
    · refine le_trans ?_ (foldl_maxStep_le_init tl (maxStep a kw))
      simp only [maxStep]
      split
      · exact le_refl _
      · next hle => exact le_of_not_lt hle
    · exact ih (maxStep a hd) kw hkw

theorem foldl_maxStep_attained :
    ∀ (ws : List (String × WalletNode)) (a : ℚ),
      ws.foldl maxStep a = a ∨
        ∃ kw ∈ ws, ws.foldl maxStep a = kw.2.totalNotionalVolume := by
  intro ws
  induction ws with
  | nil => intro a; left; rfl
  | cons hd tl ih =>
    intro a
    rw [List.foldl_cons]
    rcases ih (maxStep a hd) with heq | ⟨kw, hkw, heq⟩
    · rw [heq]
      simp only [maxStep]
      split
      · right
        exact ⟨hd, by simp, rfl⟩
      · left
        rfl
    · right
      exact ⟨kw, by simp [hkw], heq⟩

theorem final_wallets_notional_nonneg (rnd : String → ℚ × ℚ)
    (trades : List Trade)
    (hpos : ∀ t ∈ trades,
      0 ≤ t.trade_amount ∧ 0 ≤ t.trade_price ∧ 0 ≤ t.index_price) :
    ∀ p ∈ (trades.foldl (processTrade rnd) ⟨[], []⟩).wallets,
      0 ≤ p.2.totalNotionalVolume := by
  refine foldl_wallets_invariant rnd (fun w => 0 ≤ w.totalNotionalVolume)
    trades ⟨[], []⟩ (by simp) ?_ ?_
  · intro t ht
    obtain ⟨h1, _, h3⟩ := hpos t ht
    simp only [walletStep, walletInit, zero_add]
    exact mul_nonneg h1 h3
  · intro t ht w hw
    obtain ⟨h1, _, h3⟩ := hpos t ht
    simp only [walletStep]
    exact add_nonneg hw (mul_nonneg h1 h3)

theorem final_wallets_ne_nil (rnd : String → ℚ × ℚ) (trades : List Trade)
    (hne : trades ≠ []) :
    (trades.foldl (processTrade rnd) ⟨[], []⟩).wallets ≠ [] := by
  cases trades with
  | nil => exact absurd rfl hne
  | cons t ts =>
    rw [List.foldl_cons]
    exact foldl_wallets_ne_nil rnd ts (processTrade rnd ⟨[], []⟩ t)
      (upsert_ne_nil _ _ _ _)

/-- C3: on a non-empty trade list whose numeric fields parse to
non-negative finite values, every node gets
`normalizedSize = totalNotionalVolume / maxNotionalVolume` (or `1` for
every node when the maximum is `0`); hence every `normalizedSize` lies in
`[0, 1]` and any node of maximal `totalNotionalVolume` has
`normalizedSize` exactly `1`. -/
theorem processTradeData_normalizedSize_spec (rnd : String → ℚ × ℚ)
    (trades : List Trade) (hne : trades ≠ [])
    (hpos : ∀ t ∈ trades,
      0 ≤ t.trade_amount ∧ 0 ≤ t.trade_price ∧ 0 ≤ t.index_price) :
    (processTradeData rnd trades).nodes ≠ [] ∧
    ∀ n ∈ (processTradeData rnd trades).nodes,
      n.normalizedSize
          = (if 0 < n.maxAmount then n.totalNotionalVolume / n.maxAmount
             else 1) ∧
        0 ≤ n.normalizedSize ∧ n.normalizedSize ≤ 1 ∧
        ((∀ nn ∈ (processTradeData rnd trades).nodes,
            nn.totalNotionalVolume ≤ n.totalNotionalVolume) →
          n.normalizedSize = 1) := by
  have hws := final_wallets_ne_nil rnd trades hne
  have hnn := final_wallets_notional_nonneg rnd trades hpos
  have h0max : (0 : ℚ) ≤ maxNotionalVolume
      (trades.foldl (processTrade rnd) ⟨[], []⟩).wallets :=
    foldl_maxStep_le_init _ 0
  constructor
  · rw [processTradeData_nodes_def]
    simpa using hws
  · intro n hn
    rw [processTradeData_nodes_def] at hn
    obtain ⟨kw, hkw, rfl⟩ := List.mem_map.mp hn
    have hle : kw.2.totalNotionalVolume ≤ maxNotionalVolume
        (trades.foldl (processTrade rnd) ⟨[], []⟩).wallets :=
      foldl_maxStep_mem_le _ 0 kw hkw
    refine ⟨rfl, ?_, ?_, ?_⟩
    · simp only [mkGraphNode]
      split
      · next hp => exact div_nonneg (hnn kw hkw) (le_of_lt hp)
      · exact zero_le_one
    · simp only [mkGraphNode]
      split
      · next hp => exact (div_le_one hp).mpr hle
      · exact le_refl 1
    · intro hmax
      by_cases hp : 0 < maxNotionalVolume
          (trades.foldl (processTrade rnd) ⟨[], []⟩).wallets
      · rcases foldl_maxStep_attained
          (trades.foldl (processTrade rnd) ⟨[], []⟩).wallets 0 with
          heq | ⟨kw', hkw', heq⟩
        · exact absurd heq (by simpa [maxNotionalVolume] using ne_of_gt hp)
        · have hmem : mkGraphNode (maxNotionalVolume
              (trades.foldl (processTrade rnd) ⟨[], []⟩).wallets) kw'.2
              ∈ (processTradeData rnd trades).nodes := by
            rw [processTradeData_nodes_def]
            exact List.mem_map_of_mem _ hkw'
          have hge := hmax _ hmem
          simp only [mkGraphNode] at hge
          have hkeq : kw.2.totalNotionalVolume = maxNotionalVolume
              (trades.foldl (processTrade rnd) ⟨[], []⟩).wallets := by
            have : maxNotionalVolume
                (trades.foldl (processTrade rnd) ⟨[], []⟩).wallets
                ≤ kw.2.totalNotionalVolume := by
              rw [maxNotionalVolume, heq]
              exact hge
            exact le_antisymm hle this
          simp [mkGraphNode, hp, hkeq, div_self (ne_of_gt hp)]
      · simp [mkGraphNode, hp]

/-- C3 witness: on the one-trade list the unique node has
`normalizedSize = 1` and satisfies all the bounds. -/
theorem processTradeData_normalizedSize_spec_witness :
    (processTradeData rnd0 [tSellA]).nodes ≠ [] ∧
    ∀ n ∈ (processTradeData rnd0 [tSellA]).nodes,
      n.normalizedSize
          = (if 0 < n.maxAmount then n.totalNotionalVolume / n.maxAmount
             else 1) ∧
        0 ≤ n.normalizedSize ∧ n.normalizedSize ≤ 1 ∧
        ((∀ nn ∈ (processTradeData rnd0 [tSellA]).nodes,
            nn.totalNotionalVolume ≤ n.totalNotionalVolume) →
          n.normalizedSize = 1) :=
  processTradeData_normalizedSize_spec rnd0 [tSellA] (by decide) (by decide)

/-! ### The colour mapping -/

theorem calculateNodeColor_hue_mid (b s : ℕ) (h0 : ¬(b = 0 ∧ s = 0))
    (h1 : floatBuyRatio b s ≠ 0) (h2 : floatBuyRatio b s ≠ 100) :
    (calculateNodeColor b s).hue = hueF (floatBuyRatio b s) := by
  simp [calculateNodeColor, h0, h1, h2]

set_option maxRecDepth 100000 in
theorem hueF_step : ∀ r, r < 100 → hueF r ≤ hueF (r + 1) := by
  decide

theorem hueF_mono (r₁ r₂ : ℕ) (h12 : r₁ ≤ r₂) (h2 : r₂ < 100) :
    hueF r₁ ≤ hueF r₂ := by
  induction r₂, h12 using Nat.le_induction with
  | base => exact le_refl _
  | succ n hn ih =>
    exact le_trans (ih (by omega)) (hueF_step n (by omega))

/-- C5: `calculateNodeColor` is a pure function of the two counts: it
returns the neutral gray on an inactive wallet, pure red when the
computed buy-ratio percentage is `0`, pure green when it is `100`, and in
between its hue is monotonically non-decreasing in the buy-ratio
percentage. The buy ratio and the hue are computed in the source's
binary64 arithmetic (`floatBuyRatio` and `hueF`). -/
theorem calculateNodeColor_spec :
    calculateNodeColor 0 0 = ⟨210, 10, 70⟩ ∧
    (∀ b s, ¬(b = 0 ∧ s = 0) → floatBuyRatio b s = 0 →
      calculateNodeColor b s = ⟨0, 100, 50⟩) ∧
    (∀ b s, ¬(b = 0 ∧ s = 0) → floatBuyRatio b s = 100 →
      calculateNodeColor b s = ⟨142, 100, 45⟩) ∧
    (∀ b₁ s₁ b₂ s₂, ¬(b₁ = 0 ∧ s₁ = 0) → ¬(b₂ = 0 ∧ s₂ = 0) →
      0 < floatBuyRatio b₁ s₁ → floatBuyRatio b₁ s₁ < floatBuyRatio b₂ s₂ →
      floatBuyRatio b₂ s₂ < 100 →
      (calculateNodeColor b₁ s₁).hue ≤ (calculateNodeColor b₂ s₂).hue) := by
  refine ⟨by decide, ?_, ?_, ?_⟩
  · intro b s h0 hr
    simp [calculateNodeColor, h0, hr]
  · intro b s h0 hr
    simp [calculateNodeColor, h0, hr]
  · intro b₁ s₁ b₂ s₂ h01 h02 hpos hlt hub
    rw [calculateNodeColor_hue_mid b₁ s₁ h01 (by omega) (by omega),
      calculateNodeColor_hue_mid b₂ s₂ h02 (by omega) (by omega)]
    exact hueF_mono _ _ (le_of_lt hlt) hub

/-- C5 witness: concrete instances of the red, green and monotonicity
parts — one buy among 201 trades gives computed ratio 0 (red), an
all-buy wallet gives ratio 100 (green), and the hue at computed ratio 33
(counts 1:2) is at most the hue at computed ratio 66 (counts 2:1). -/
theorem calculateNodeColor_spec_witness :
    calculateNodeColor 1 200 = ⟨0, 100, 50⟩ ∧
    calculateNodeColor 3 0 = ⟨142, 100, 45⟩ ∧
    (calculateNodeColor 1 2).hue ≤ (calculateNodeColor 2 1).hue :=
  ⟨calculateNodeColor_spec.2.1 1 200 (by decide) (by decide),
    calculateNodeColor_spec.2.2.1 3 0 (by decide) (by decide),
    calculateNodeColor_spec.2.2.2 1 2 2 1 (by decide) (by decide)
      (by decide) (by decide) (by decide)⟩

/-! ### The paginated fetcher -/

theorem batchPages_eq_range (page total : ℕ) (h : page ≤ total) :
    batchPages page total
      = List.range' page (min fetchBatchSize (total + 1 - page)) := by
  have hrange : (List.range fetchBatchSize).map (page + ·)
      = [page, page + 1, page + 2] := by
    simp [fetchBatchSize, List.range_succ]
  rw [batchPages, hrange]
  by_cases h2 : page + 2 ≤ total
  · have hmin : min fetchBatchSize (total + 1 - page) = 3 := by
      simp only [fetchBatchSize]
      omega
    rw [hmin]
    simp [List.filter_cons, h, (by omega : page + 1 ≤ total), h2,
      List.range'_succ]
  · by_cases h1 : page + 1 ≤ total
    · have hmin : min fetchBatchSize (total + 1 - page) = 2 := by
        simp only [fetchBatchSize]
        omega
      rw [hmin]
      simp [List.filter_cons, h, h1, h2, List.range'_succ]
    · have hmin : min fetchBatchSize (total + 1 - page) = 1 := by
        simp only [fetchBatchSize]
        omega
      rw [hmin]
      simp [List.filter_cons, h, h1, h2]

theorem batchLoop_flatten :
    ∀ (fuel page total : ℕ), total + 1 ≤ page + fetchBatchSize * fuel →
      (batchLoop fuel page total).flatten
        = List.range' page (total + 1 - page) := by
  intro fuel
  induction fuel with
  | zero =>
    intro page total hf
    simp only [fetchBatchSize, Nat.mul_zero, Nat.add_zero] at hf
    rw [show total + 1 - page = 0 by omega]
    simp [batchLoop]
  | succ fuel ih =>
    intro page total hf
    by_cases hp : page ≤ total
    · rw [show batchLoop (fuel + 1) page total
          = batchPages page total ::
              batchLoop fuel (page + fetchBatchSize) total by
            simp [batchLoop, hp],
        List.flatten_cons, batchPages_eq_range page total hp,
        ih (page + fetchBatchSize) total
          (by simp only [fetchBatchSize] at hf ⊢; omega)]
      by_cases h3 : 3 ≤ total + 1 - page
      · have hmin : min fetchBatchSize (total + 1 - page) = 3 := by
          simp only [fetchBatchSize]
          omega
        rw [hmin]
        have happ := List.range'_append_1 page 3
          (total + 1 - (page + fetchBatchSize))
        simp only [fetchBatchSize] at *
        rw [show page + 3 = page + 3 from rfl] at happ
        rw [happ, show total + 1 - (page + 3) + 3 = total + 1 - page by
          omega]
      · have hmin : min fetchBatchSize (total + 1 - page)
            = total + 1 - page := by
          simp only [fetchBatchSize]
          omega
        rw [hmin, show total + 1 - (page + fetchBatchSize) = 0 by
            simp only [fetchBatchSize]; omega]
        simp
    · rw [show batchLoop (fuel + 1) page total = [] by simp [batchLoop, hp],
        show total + 1 - page = 0 by omega]
      simp

theorem batchLoop_batches :
    ∀ (fuel page total : ℕ), ∀ b ∈ batchLoop fuel page total,
      b ≠ [] ∧ b.length ≤ fetchBatchSize := by
  intro fuel
  induction fuel with
  | zero =>
    intro page total b hb
    simp [batchLoop] at hb
  | succ fuel ih =>
    intro page total b hb
    by_cases hp : page ≤ total
    · rw [show batchLoop (fuel + 1) page total
          = batchPages page total ::
              batchLoop fuel (page + fetchBatchSize) total by
            simp [batchLoop, hp]] at hb
      rcases List.mem_cons.mp hb with rfl | hb
      · constructor
        · rw [batchPages_eq_range page total hp]
          simp only [ne_eq, List.range'_eq_nil]
          simp only [fetchBatchSize]
          omega
        · rw [batchPages]
          calc (((List.range fetchBatchSize).map (page + ·)).filter
                (· ≤ total)).length
              ≤ ((List.range fetchBatchSize).map (page + ·)).length :=
                List.length_filter_le _ _
            _ = fetchBatchSize := by simp
      · exact ih (page + fetchBatchSize) total b hb
    · rw [show batchLoop (fuel + 1) page total = [] by
          simp [batchLoop, hp]] at hb
      simp at hb

theorem runBatch_error (fetchPage : ℕ → Except String (List Trade)) :
    ∀ (batch : List ℕ) (p : ℕ) (e : String), p ∈ batch →
      fetchPage p = Except.error e →
      ∃ e', runBatch fetchPage batch = Except.error e' := by
  intro batch
  induction batch with
  | nil =>
    intro p e hp
    simp at hp
  | cons q rest ih =>
    intro p e hp he
    rcases List.mem_cons.mp hp with rfl | hp
    · exact ⟨e, by simp [runBatch, he]⟩
    · cases hq : fetchPage q with
      | error e' => exact ⟨e', by simp [runBatch, hq]⟩
      | ok r =>
        obtain ⟨e', he'⟩ := ih p e hp he
        exact ⟨e', by simp [runBatch, hq, he']⟩

theorem runSchedule_error (fetchPage : ℕ → Except String (List Trade)) :
    ∀ (sched : List (List ℕ)) (p : ℕ) (e : String), p ∈ sched.flatten →
      fetchPage p = Except.error e →
      ∃ e', runSchedule fetchPage sched = Except.error e' := by
  intro sched
  induction sched with
  | nil =>
    intro p e hp
    simp at hp
  | cons b rest ih =>
    intro p e hp he
    rw [List.flatten_cons] at hp
    rcases List.mem_append.mp hp with hp | hp
    · obtain ⟨e', he'⟩ := runBatch_error fetchPage b p e hp he
      exact ⟨e', by simp [runSchedule, he']⟩
    · cases hb : runBatch fetchPage b with
      | error e' => exact ⟨e', by simp [runSchedule, hb]⟩
      | ok results =>
        obtain ⟨e', he'⟩ := ih p e hp he
        exact ⟨e', by simp [runSchedule, hb, he']⟩

/-- C7: a fetch whose first response declares `num_pages = n` makes
exactly one request when `n ≤ 1`; otherwise the remaining requests cover
pages `2..n` in order, in batches of at most `fetchBatchSize = 3` (for
`n = 5`: the batches `[2,3,4]` then `[5]`), batches are processed
sequentially, and a failure of any scheduled page fails the whole fetch
with no partial result. -/
theorem fetcher_batching_spec :
    (∀ n, n ≤ 1 → requestCount n = 1) ∧
    pageSchedule 5 = [[2, 3, 4], [5]] ∧
    (∀ n, 2 ≤ n → (pageSchedule n).flatten = List.range' 2 (n - 1) ∧
      ∀ b ∈ pageSchedule n, b ≠ [] ∧ b.length ≤ fetchBatchSize) ∧
    (∀ (f : ℕ → Except String (List Trade)) (n p : ℕ) (e : String),
      p ∈ (pageSchedule n).flatten → f p = Except.error e →
      ∃ e', runSchedule f (pageSchedule n) = Except.error e') := by
  refine ⟨?_, by decide, ?_, ?_⟩
  · intro n hn
    simp [requestCount, pageSchedule, hn]
  · intro n hn
    constructor
    · rw [pageSchedule, if_neg (by omega), batchesFrom,
        batchLoop_flatten (n + 1) 2 n
          (by simp only [fetchBatchSize]; omega)]
      congr 1
    · intro b hb
      rw [pageSchedule, if_neg (by omega), batchesFrom] at hb
      exact batchLoop_batches (n + 1) 2 n b hb
  · intro f n p e hp he
    exact runSchedule_error f (pageSchedule n) p e hp he

/-- C7 witness: one request for a single-page response; for `num_pages =
5` the scheduled pages are exactly `2..5`; a failure on page 3 makes the
whole schedule fail. -/
theorem fetcher_batching_spec_witness :
    requestCount 1 = 1 ∧
    (pageSchedule 5).flatten = List.range' 2 4 ∧
    (∃ e', runSchedule failingFetch (pageSchedule 5) = Except.error e') :=
  ⟨fetcher_batching_spec.1 1 (by decide),
    (fetcher_batching_spec.2.2.1 5 (by decide)).1,
    fetcher_batching_spec.2.2.2 failingFetch 5 3 "boom" (by decide) rfl⟩

/-- C6 counterexample: the claim fails as stated — a filter input with
`fromTimestamp = 10 ≥ toTimestamp = 5` is not rejected: the window check
passes (the difference is negative) and the first network request is
issued. -/
theorem validate_from_ge_to_not_rejected :
    badFilters.fromTimestamp ≥ badFilters.toTimestamp ∧
    validateTimeRange badFilters = none ∧
    issuesFirstRequest badFilters = true := by
  decide

/-- C6 (amended): the fetcher's only pre-network validation is the
maximum-window rule — it rejects before any request exactly when
`toTimestamp - fromTimestamp` exceeds 7 days; an input with
`fromTimestamp ≥ toTimestamp` passes validation and the first-page
request is issued. -/
theorem validateTimeRange_window_only (f : Filters) :
    ((validateTimeRange f).isSome ↔
      oneWeekMs < f.toTimestamp - f.fromTimestamp) ∧
    (f.fromTimestamp ≥ f.toTimestamp →
      validateTimeRange f = none ∧ issuesFirstRequest f = true) := by
  constructor
  · rw [validateTimeRange]
    split
    · next h => simpa using h
    · next h => simpa using h
  · intro hge
    have hno : ¬(f.toTimestamp - f.fromTimestamp > oneWeekMs) := by
      simp only [oneWeekMs]
      omega
    simp [validateTimeRange, issuesFirstRequest, hno]

/-- C6 amended-claim witness at the concrete bad filter input. -/
theorem validateTimeRange_window_only_witness :
    ((validateTimeRange badFilters).isSome ↔
      oneWeekMs < badFilters.toTimestamp - badFilters.fromTimestamp) ∧
    (validateTimeRange badFilters = none ∧
      issuesFirstRequest badFilters = true) :=
  ⟨(validateTimeRange_window_only badFilters).1,
    (validateTimeRange_window_only badFilters).2 (by decide)⟩

/-- C8: the error raised for a non-success page response never carries
the remote `message` field — the `throw` built from the parsed message
sits inside the `try` block, so its own `catch (parseError)` intercepts
it and rethrows the status-line fallback for every response, JSON or
not. Evaluated at a failing input: a 429 response whose body is
`\x7b"message": "rate limited"\x7d` surfaces the fallback, not the remote
message. -/
theorem errorMessage_always_fallback :
    (∀ r : ApiResponse, initialErrorMessage r
      = "API error (" ++ toString r.status ++ "): " ++ r.statusText) ∧
    initialErrorMessage ⟨429, "Too Many Requests", some ⟨some "rate limited"⟩⟩
      = "API error (429): Too Many Requests" ∧
    initialErrorMessage ⟨429, "Too Many Requests", some ⟨some "rate limited"⟩⟩
      ≠ "rate limited" ∧
    pageErrorMessage 2
        ⟨500, "Internal Server Error", some ⟨some "upstream down"⟩⟩
      = "API error on page 2 (500): Internal Server Error" := by
  refine ⟨?_, by decide, by decide, by decide⟩
  intro r
  cases r with
  | mk status statusText body => cases body <;> rfl

end Swarm
